import Mathlib

/-!
Verification of the oneterminal specification against its source.

The repository ships one source file, `internal/yaml/yaml.go` (the config
layer).  Its data model and control flow are embedded below as executable
Lean definitions.  The `pkg/monitor` package (Command Specification,
Monitored Command, Output Multiplexer, Orchestrator) is referenced by the
config layer but its source is not present; those parts are modelled from
the specification text, and each such definition carries a doc comment
saying so.
-/

namespace OneTerminal

/-! ## Config layer: embedding of internal/yaml/yaml.go -/

/-- `Command` struct from yaml.go: one command to run in a terminal tab. -/
structure Command where
  name : String
  command : String
  cmdDir : String
  silence : Bool
  deriving Repr, DecidableEq

/-- `OneTerminalConfig` struct from yaml.go: all fields of a yaml config. -/
structure OneTerminalConfig where
  name : String
  shell : String
  short : String
  long : String
  commands : List Command
  deriving Repr, DecidableEq

/-- `reservedNames` map from yaml.go (the keys mapped to true). -/
def reservedNames : List String := ["completion", "example", "help"]

/-- The functional options of the missing `pkg/monitor` package, as they are
named at the call sites in yaml.go (`PrefixStdout`, `BashShell`,
`SetCmdDir`, `SilenceOutput`). -/
inductive MonitorOption where
  | prefixStdout (name : String)
  | bashShell
  | setCmdDir (dir : String)
  | silenceOutput
  deriving Repr, DecidableEq

/-- The option list built for one command inside `ParseAndAddToRoot`
(yaml.go lines 79-91): prefix when the name is non-empty, bash shell when
the config shell is exactly "bash", working directory when non-empty,
silencing when the silence flag is set, in that order. -/
def commandOptions (shell : String) (cmd : Command) : List MonitorOption :=
  (if cmd.name ≠ "" then [MonitorOption.prefixStdout cmd.name] else []) ++
  (if shell = "bash" then [MonitorOption.bashShell] else []) ++
  (if cmd.cmdDir ≠ "" then [MonitorOption.setCmdDir cmd.cmdDir] else []) ++
  (if cmd.silence then [MonitorOption.silenceOutput] else [])

/-- The panics `ParseAndAddToRoot` can raise while checking names. -/
inductive NamePanic where
  | duplicateName (n : String)
  | reservedName (n : String)
  deriving Repr, DecidableEq

/-- The name-checking and registration loop of `ParseAndAddToRoot`
(yaml.go lines 54-106): for each config, panic if its name was already
seen, record it as seen, panic if it is reserved, otherwise register the
config on the root command.  Returns the names registered, in order. -/
def addToRootLoop : List OneTerminalConfig → List String → Except NamePanic (List String)
  | [], _ => Except.ok []
  | c :: rest, seen =>
    if c.name ∈ seen then Except.error (NamePanic.duplicateName c.name)
    else if c.name ∈ reservedNames then Except.error (NamePanic.reservedName c.name)
    else (addToRootLoop rest (c.name :: seen)).map (fun l => c.name :: l)

/-- `ParseAndAddToRoot` restricted to its pure content: the cross-command
name checks and registrations over the parsed configs. -/
def ParseAndAddToRoot (configs : List OneTerminalConfig) : Except NamePanic (List String) :=
  addToRootLoop configs []

/-! ## Monitored Command state machine

Modelled from the spec: the `pkg/monitor` package is not in the source
tree; sections 3 and 4.1 of the spec define the Monitored Command state
and its operations. -/

/-- The error taxonomy of spec section 7. -/
inductive ErrKind where
  | spawnError
  | runtimeExitError
  | signalDeliveryError
  deriving Repr, DecidableEq

/-- Modelled from the spec: the missing monitor package's per-command
runtime state, `state ∈ \x7bPending, Running, Exited(code), Killed,
Failed(error)\x7d` (spec section 3). -/
inductive CmdState where
  | pending
  | running
  | exited (code : Int)
  | killed
  | failed (e : ErrKind)
  deriving Repr, DecidableEq

/-- A state is terminal when it is neither Pending nor Running. -/
def CmdState.isTerminal : CmdState → Bool
  | CmdState.pending => false
  | CmdState.running => false
  | _ => true

/-- A subprocess is alive exactly in the Running state (Pending has not
spawned yet, terminal states have exited or been killed). -/
def CmdState.alive : CmdState → Bool
  | CmdState.running => true
  | _ => false

/-- Rank of a state along the forward order Pending → Running → terminal. -/
def CmdState.rank : CmdState → Nat
  | CmdState.pending => 0
  | CmdState.running => 1
  | _ => 2

/-- The operations a Monitored Command receives (spec section 4.1):
`Start` (with the outcome of the OS spawn), `Wait` (with the observed
exit code), and `Stop`. -/
inductive CmdOp where
  | start (spawnOk : Bool)
  | wait (code : Int)
  | stop
  deriving Repr, DecidableEq

/-- Modelled from the spec: `Start()` transitions Pending → Running, or
Pending → Failed(SpawnError) when the spawn fails; it does nothing on a
command already started (spec section 4.1). -/
def startCmd (spawnOk : Bool) : CmdState → CmdState
  | CmdState.pending =>
    if spawnOk then CmdState.running else CmdState.failed ErrKind.spawnError
  | s => s

/-- Modelled from the spec: `Wait()` blocks until exit and transitions
Running → Exited(code); on any other state it records nothing. -/
def waitCmd (code : Int) : CmdState → CmdState
  | CmdState.running => CmdState.exited code
  | s => s

/-- Modelled from the spec: `Stop(gracePeriod)` is idempotent, a no-op on
a terminal state, and transitions Running → Killed. -/
def stopCmd : CmdState → CmdState
  | CmdState.running => CmdState.killed
  | s => s

/-- Apply one operation to a command state. -/
def applyOp : CmdOp → CmdState → CmdState
  | CmdOp.start ok => startCmd ok
  | CmdOp.wait code => waitCmd code
  | CmdOp.stop => stopCmd

/-! ## Orchestrator run

Modelled from the spec: section 4.3 describes `RunCommands` as start all,
block until every command is terminal or an interrupt arrives, then drain
by stopping every still-running command. -/

/-- What happens to one command during a run: its spawn fails, it exits
naturally (with some code) before the draining phase begins, or it is
still running when draining begins (natural completion of the run means
no command has this fate; an interrupt may leave any subset here). -/
inductive CmdFate where
  | spawnFail
  | exits (code : Int)
  | runsUntilStopped
  deriving Repr, DecidableEq

/-- Modelled from the spec: the life of one command through a
`RunCommands` call: `Start` from Pending, natural exit recorded by its
`Wait` task if it exits before draining, then `Stop` in the draining
phase (a no-op when already terminal). -/
def runOneCommand (f : CmdFate) : CmdState :=
  let started := startCmd (f ≠ CmdFate.spawnFail) CmdState.pending
  let waited :=
    match f with
    | CmdFate.exits code => waitCmd code started
    | _ => started
  stopCmd waited

/-- Modelled from the spec: the per-command terminal states produced by
one `RunCommands` call, given each command's fate. -/
def runCommands (fates : List CmdFate) : List CmdState :=
  fates.map runOneCommand

/-- Whether a terminal state counts as a failure for the aggregate
result (spec section 7: SpawnError, nonzero exit, or a kill). -/
def CmdState.isFailure : CmdState → Bool
  | CmdState.failed _ => true
  | CmdState.exited code => code ≠ 0
  | CmdState.killed => true
  | _ => false

/-- `AggregateResult` from spec section 6: per-command terminal states
and a single any-failure boolean. -/
structure AggregateResult where
  perCommand : List (String × CmdState)
  anyFailed : Bool
  deriving Repr, DecidableEq

/-- Modelled from the spec: the aggregate result `RunCommands` returns. -/
def runAggregate (names : List String) (fates : List CmdFate) : AggregateResult :=
  { perCommand := names.zip (runCommands fates)
    anyFailed := (runCommands fates).any CmdState.isFailure }

/-! ## Environment expansion at spawn time

Modelled from the spec: section 6 says `workingDir` and `shellText` are
expanded against the host environment at spawn time with the standard
`$VAR` semantics (the yaml.go example comments name `os.ExpandEnv`);
unresolved variables expand to the empty string. -/

/-- A character that may appear in a shell variable name. -/
def isShellNameChar (c : Char) : Bool :=
  c.isAlphanum || c = '_'

/-- Read the longest leading run of shell-name characters. -/
def readName : List Char → List Char × List Char
  | [] => ([], [])
  | c :: cs =>
    if isShellNameChar c then
      let p := readName cs
      (c :: p.1, p.2)
    else ([], c :: cs)

/-- The expansion of one variable name: its value in the environment, or
the empty string when the variable is unset. -/
def lookupVal (env : String → Option String) (nm : List Char) : List Char :=
  ((env (String.mk nm)).getD "").data

/-- Modelled from the spec: the character scan of standard `$VAR`
expansion.  The first argument is `some acc` while the scanner is inside
a variable name (with `acc` the name characters read so far) and `none`
in plain text. -/
def expandLoop (env : String → Option String) : Option (List Char) → List Char → List Char
  | none, [] => []
  | some acc, [] => lookupVal env acc
  | none, c :: cs =>
    if c = '$' then expandLoop env (some []) cs
    else c :: expandLoop env none cs
  | some acc, c :: cs =>
    if isShellNameChar c then expandLoop env (some (acc ++ [c])) cs
    else
      lookupVal env acc ++
        (if c = '$' then expandLoop env (some []) cs
         else c :: expandLoop env none cs)

/-- Modelled from the spec: `os.ExpandEnv`-style expansion of a string
against the host environment, with unresolved variables expanding to the
empty string. -/
def expandEnv (env : String → Option String) (s : String) : String :=
  String.mk (expandLoop env none s.data)

/-- Command Specification from spec section 3 (immutable description of
one command). -/
structure CmdSpec where
  name : String
  shellText : String
  workingDir : String
  useLoginShell : Bool
  silence : Bool
  deriving Repr, DecidableEq

/-- Modelled from the spec: at spawn time `Start()` expands environment
variables in `workingDir` and `shellText` against the host environment
(spec sections 4.1 and 6); the pair of expanded strings the spawn uses. -/
def expandedAtSpawn (env : String → Option String) (spec : CmdSpec) : String × String :=
  (expandEnv env spec.workingDir, expandEnv env spec.shellText)

/-! ## GetConfigDir (yaml.go lines 145-157)

The OS effects (home-directory lookup, MkdirAll) are abstracted as an
explicit record of outcomes so the control flow of the Go function can be
embedded as a pure function. -/

/-- Outcomes of the two OS calls `GetConfigDir` makes. -/
structure OSEnv where
  userHomeDir : Except String String
  mkdirAll : String → Except String Unit

/-- Model of Go `filepath.Join` on the two segments `GetConfigDir` joins
(neither segment empty in its use; Join inserts the separator). -/
def filepathJoin (a b : String) : String :=
  if a = "" then b else if b = "" then a else a ++ "/" ++ b

/-- Result of `GetConfigDir`: the returned path and error (Go returns the
pair `(string, error)`; an error comes with the empty path), plus the
list of directories it asked `MkdirAll` to create, for observing the
side effect. -/
structure ConfigDirResult where
  path : String
  err : Option String
  mkdirCalls : List String
  deriving Repr, DecidableEq

/-- `GetConfigDir` from yaml.go: look up the home directory (wrapping a
failure as "finding home directory"), join it with ".config/oneterminal",
create that directory with MkdirAll (returning its error unchanged), and
return the joined path. -/
def GetConfigDir (os : OSEnv) : ConfigDirResult :=
  match os.userHomeDir with
  | Except.error e =>
    { path := "", err := some ("finding home directory: " ++ e), mkdirCalls := [] }
  | Except.ok homedir =>
    let dir := filepathJoin homedir ".config/oneterminal"
    match os.mkdirAll dir with
    | Except.error e => { path := "", err := some e, mkdirCalls := [dir] }
    | Except.ok _ => { path := dir, err := none, mkdirCalls := [dir] }

/-! ## Output Multiplexer

Modelled from the spec: section 4.2 describes the multiplexer as holding,
per command, a line-assembly buffer; incoming byte chunks are appended to
the owning command's buffer, and on each newline boundary one complete
line is emitted as a single atomic write to the mutex-guarded sink.
Concurrency is modelled by quantifying over every interleaving of chunk
arrivals; atomicity of a sink write is modelled by the sink being a
sequence of whole writes, each tagged with the command that held the
mutex for it. -/

/-- Per-command registration data the multiplexer holds: the command name
used for line tagging and the silence flag. -/
structure WriterInfo where
  name : String
  silence : Bool
  deriving Repr, DecidableEq

/-- One raw chunk arriving at the multiplexer: the identity of the source
command and the bytes read from its stream. -/
structure Chunk where
  writer : Nat
  data : List Char
  deriving Repr, DecidableEq

/-- Multiplexer state: one line-assembly buffer per command, and the sink
as the sequence of atomic writes performed so far (each tagged with the
command that performed it). -/
structure MuxState where
  buffers : Nat → List Char
  sink : List (Nat × List Char)

/-- Modelled from the spec: the bytes of one emitted line: the complete
source line, with the tag "[name] " prepended when the name is
non-empty, and unmodified when the name is empty. -/
def emitLine (name : String) (core : List Char) : List Char :=
  if name = "" then core else ("[" ++ name ++ "] ").data ++ core

/-- Modelled from the spec: the byte loop of the multiplexer for one
chunk from command `w`: append each byte to the buffer, and on a newline
emit the assembled line as one atomic sink write. -/
def muxChars (name : String) (w : Nat) :
    List Char → List Char → List (Nat × List Char) →
    List Char × List (Nat × List Char)
  | [], buf, sink => (buf, sink)
  | c :: cs, buf, sink =>
    if c = '\n' then muxChars name w cs [] (sink ++ [(w, emitLine name buf)])
    else muxChars name w cs (buf ++ [c]) sink

/-- Modelled from the spec: one chunk arriving at the multiplexer.  A
silenced command's bytes are drained but never forwarded; otherwise the
bytes run through the byte loop against that command's own buffer. -/
def muxWriteChunk (info : Nat → WriterInfo) (st : MuxState) (ch : Chunk) : MuxState :=
  if (info ch.writer).silence then st
  else
    let r := muxChars (info ch.writer).name ch.writer ch.data (st.buffers ch.writer) st.sink
    { buffers := fun w => if w = ch.writer then r.1 else st.buffers w
      sink := r.2 }

/-- The multiplexer's initial state: empty buffers, empty sink. -/
def muxInit : MuxState :=
  { buffers := fun _ => [], sink := [] }

/-- Modelled from the spec: a full run of the multiplexer over one
interleaving of chunk arrivals. -/
def muxRun (info : Nat → WriterInfo) (events : List Chunk) : MuxState :=
  events.foldl (muxWriteChunk info) muxInit

/-- Modelled from the spec: stream close for command `w` flushes its
trailing partial line, if any, as one atomic sink write. -/
def muxClose (info : Nat → WriterInfo) (st : MuxState) (w : Nat) : MuxState :=
  if st.buffers w = [] then st
  else
    { buffers := fun w2 => if w2 = w then [] else st.buffers w2
      sink := st.sink ++ [(w, emitLine (info w).name (st.buffers w))] }

/-- Close a list of streams in order. -/
def muxCloseAll (info : Nat → WriterInfo) (st : MuxState) (ws : List Nat) : MuxState :=
  ws.foldl (muxClose info) st

/-- A full multiplexer lifetime: process one interleaving of chunks, then
close the given streams. -/
def muxFinal (info : Nat → WriterInfo) (events : List Chunk) (ws : List Nat) : MuxState :=
  muxCloseAll info (muxRun info events) ws

/-- The sink writes performed by command `w`, in order. -/
def sinkOf (w : Nat) (sink : List (Nat × List Char)) : List (List Char) :=
  sink.filterMap (fun e => if e.1 = w then some e.2 else none)

/-- All bytes command `w` handed to the multiplexer across a run, in
arrival order. -/
def writerInput (w : Nat) (events : List Chunk) : List Char :=
  (events.filterMap (fun ch => if ch.writer = w then some ch.data else none)).flatten

/-- Reassemble complete lines into a byte stream. -/
def joinLines (ls : List (List Char)) : List Char :=
  (ls.map (fun l => l ++ ['\n'])).flatten

/-- Reference line splitter: the lines completed by `data` arriving after
`buf`, and the new trailing remainder. -/
def splitLines : List Char → List Char → List (List Char) × List Char
  | [], buf => ([], buf)
  | c :: cs, buf =>
    if c = '\n' then
      let r := splitLines cs []
      (buf :: r.1, r.2)
    else splitLines cs (buf ++ [c])

/-- Invariant of a multiplexer run: for every non-silenced command, the
sink writes tagged with it are exactly its completed input lines in
order (each wearing its tag), none containing a newline, the buffer
holds the remaining partial line, and a silenced command has an empty
buffer and no sink writes at all. -/
def MuxInv (info : Nat → WriterInfo) (events : List Chunk) (st : MuxState) : Prop :=
  ∀ w : Nat,
    ((info w).silence = false →
      ∃ cores : List (List Char),
        sinkOf w st.sink = cores.map (emitLine (info w).name) ∧
        (∀ l ∈ cores, '\n' ∉ l) ∧
        joinLines cores ++ st.buffers w = writerInput w events ∧
        '\n' ∉ st.buffers w) ∧
    ((info w).silence = true → sinkOf w st.sink = [] ∧ st.buffers w = [])

/-- One sink write is well formed: it was performed by a non-silenced
command and its bytes are that one command's complete line (or trailing
remainder), newline free, drawn contiguously from that command's own
input, with the tagging applied per the command's name. -/
def EntryOk (info : Nat → WriterInfo) (events : List Chunk) (e : Nat × List Char) : Prop :=
  (info e.1).silence = false ∧
  ∃ core, e.2 = emitLine (info e.1).name core ∧ '\n' ∉ core ∧
    core <:+: writerInput e.1 events

/-- Weaker invariant that also survives stream closes: every sink write
is well formed, and every buffer is a newline-free suffix of its
command's input (empty for silenced commands). -/
def SinkOk (info : Nat → WriterInfo) (events : List Chunk) (st : MuxState) : Prop :=
  (∀ e ∈ st.sink, EntryOk info events e) ∧
  ∀ w : Nat,
    '\n' ∉ st.buffers w ∧ st.buffers w <:+ writerInput w events ∧
    ((info w).silence = true → st.buffers w = [])

/-- Demo registration used by concrete instantiations: two named,
unsilenced commands. -/
def muxDemoInfo : Nat → WriterInfo :=
  fun w => if w = 0 then { name := "a", silence := false }
           else { name := "b", silence := false }

/-- Demo interleaving: both commands write their line split across
chunks, the arrivals interleaved. -/
def muxDemoEvents : List Chunk :=
  [⟨0, "he".data⟩, ⟨1, "wo".data⟩, ⟨0, "llo\n".data⟩, ⟨1, "rld\n".data⟩]

/-- Demo registration with command 1 silenced. -/
def muxDemoSilentInfo : Nat → WriterInfo :=
  fun w => if w = 0 then { name := "a", silence := false }
           else { name := "b", silence := true }

/-- Demo interleaving where the silenced command 1 also writes. -/
def muxDemoSilentEvents : List Chunk :=
  [⟨0, "hi\n".data⟩, ⟨1, "shh\n".data⟩]

/-- Demo registration where command 0 has the empty name. -/
def muxDemoNoNameInfo : Nat → WriterInfo :=
  fun w => if w = 0 then { name := "", silence := false }
           else { name := "b", silence := false }

/-- Demo events for the empty-name command. -/
def muxDemoNoNameEvents : List Chunk :=
  [⟨0, "raw\n".data⟩]

/-! ## Theorems: config layer -/

theorem addToRootLoop_ok_val :
    ∀ (configs : List OneTerminalConfig) (seen : List String) (l : List String),
      addToRootLoop configs seen = Except.ok l →
      l = configs.map OneTerminalConfig.name := by
  intro configs
  induction configs with
  | nil =>
    intro seen l h
    simp only [addToRootLoop] at h
    cases h
    rfl
  | cons c rest ih =>
    intro seen l h
    simp only [addToRootLoop] at h
    split at h
    · exact absurd h (by simp)
    · split at h
      · exact absurd h (by simp)
      · cases hr : addToRootLoop rest (c.name :: seen) with
        | error e => rw [hr] at h; simp [Except.map] at h
        | ok l' =>
          rw [hr] at h
          simp only [Except.map] at h
          cases h
          simp [ih _ _ hr]

theorem addToRootLoop_ok_iff (configs : List OneTerminalConfig) :
    ∀ seen, (∃ l, addToRootLoop configs seen = Except.ok l) ↔
      ((configs.map OneTerminalConfig.name).Nodup ∧
        ∀ c ∈ configs, c.name ∉ seen ∧ c.name ∉ reservedNames) := by
  induction configs with
  | nil =>
    intro seen
    constructor
    · intro _
      simp
    · intro _
      exact ⟨[], rfl⟩
  | cons c rest ih =>
    intro seen
    constructor
    · rintro ⟨l, hl⟩
      simp only [addToRootLoop] at hl
      split at hl
      case isTrue h1 => exact absurd hl (by simp)
      case isFalse h1 =>
        split at hl
        case isTrue h2 => exact absurd hl (by simp)
        case isFalse h2 =>
          cases hr : addToRootLoop rest (c.name :: seen) with
          | error e => rw [hr] at hl; simp [Except.map] at hl
          | ok l' =>
            obtain ⟨hnd, hall⟩ := (ih (c.name :: seen)).mp ⟨l', hr⟩
            refine ⟨?_, ?_⟩
            · simp only [List.map_cons, List.nodup_cons]
              refine ⟨?_, hnd⟩
              intro hmem
              obtain ⟨c', hc', hname⟩ := List.mem_map.mp hmem
              exact (hall c' hc').1 (by simp [hname])
            · intro c'' hc''
              rcases List.mem_cons.mp hc'' with h | h
              · subst h
                exact ⟨h1, h2⟩
              · have hmm := hall c'' h
                exact ⟨fun hs => hmm.1 (List.mem_cons_of_mem _ hs), hmm.2⟩
    · rintro ⟨hnd, hall⟩
      have h1 : c.name ∉ seen := (hall c (List.mem_cons_self c rest)).1
      have h2 : c.name ∉ reservedNames := (hall c (List.mem_cons_self c rest)).2
      simp only [addToRootLoop, if_neg h1, if_neg h2]
      simp only [List.map_cons, List.nodup_cons] at hnd
      obtain ⟨l, hl⟩ : ∃ l, addToRootLoop rest (c.name :: seen) = Except.ok l := by
        apply (ih (c.name :: seen)).mpr
        refine ⟨hnd.2, ?_⟩
        intro c' hc'
        have hmm := hall c' (List.mem_cons_of_mem _ hc')
        refine ⟨?_, hmm.2⟩
        intro hmem
        rcases List.mem_cons.mp hmem with he | he
        · exact hnd.1 (List.mem_map.mpr ⟨c', hc', he⟩)
        · exact hmm.1 he
      exact ⟨c.name :: l, by rw [hl]; rfl⟩

/-- C8: `ParseAndAddToRoot` panics when two parsed configs share a name,
panics when any config's name is reserved ("completion", "example",
"help"), and otherwise registers every config on the root command. -/
theorem parseAndAddToRoot_checks (configs : List OneTerminalConfig) :
    (((configs.map OneTerminalConfig.name).Nodup ∧
        ∀ c ∈ configs, c.name ∉ reservedNames) →
      ParseAndAddToRoot configs = Except.ok (configs.map OneTerminalConfig.name)) ∧
    (¬ (configs.map OneTerminalConfig.name).Nodup →
      ∃ p, ParseAndAddToRoot configs = Except.error p) ∧
    ((∃ c ∈ configs, c.name ∈ reservedNames) →
      ∃ p, ParseAndAddToRoot configs = Except.error p) := by
  refine ⟨?_, ?_, ?_⟩
  · rintro ⟨hnd, hres⟩
    obtain ⟨l, hl⟩ :=
      (addToRootLoop_ok_iff configs []).mpr ⟨hnd, fun c hc => ⟨by simp, hres c hc⟩⟩
    have hv := addToRootLoop_ok_val configs [] l hl
    rw [ParseAndAddToRoot, hl, hv]
  · intro hnd
    cases hp : ParseAndAddToRoot configs with
    | error p => exact ⟨p, rfl⟩
    | ok l =>
      exact absurd ((addToRootLoop_ok_iff configs []).mp ⟨l, hp⟩).1 hnd
  · rintro ⟨c, hc, hres⟩
    cases hp : ParseAndAddToRoot configs with
    | error p => exact ⟨p, rfl⟩
    | ok l =>
      exact absurd hres (((addToRootLoop_ok_iff configs []).mp ⟨l, hp⟩).2 c hc).2

theorem parseAndAddToRoot_checks_witness :
    ParseAndAddToRoot
        [⟨"a", "zsh", "s", "", []⟩, ⟨"b", "zsh", "s", "", []⟩] =
      Except.ok ["a", "b"] :=
  (parseAndAddToRoot_checks _).1 ⟨by decide, by decide⟩

/-- C9: the login-shell option `monitor.BashShell` is in a command's
option list exactly when the config's shell field equals "bash"; any
other shell value (such as "zsh") yields no shell option. -/
theorem bashShellOption_iff (shell : String) (cmd : Command) :
    MonitorOption.bashShell ∈ commandOptions shell cmd ↔ shell = "bash" := by
  simp only [commandOptions, List.mem_append]
  constructor
  · intro h
    rcases h with ((h | h) | h) | h <;> split_ifs at h <;> simp_all
  · intro h
    left
    left
    right
    simp [h]

theorem bashShellOption_iff_witness :
    MonitorOption.bashShell ∉ commandOptions "zsh" ⟨"n", "echo hi", "", false⟩ :=
  fun hmem => by
    have := (bashShellOption_iff "zsh" ⟨"n", "echo hi", "", false⟩).mp hmem
    exact absurd this (by decide)

/-! ## Theorems: Monitored Command state machine and Orchestrator run -/

theorem runOneCommand_terminal (f : CmdFate) :
    (runOneCommand f).isTerminal = true := by
  cases f <;> rfl

theorem runOneCommand_not_alive (f : CmdFate) :
    (runOneCommand f).alive = false := by
  cases f <;> rfl

/-- C2: whether `RunCommands` ends by natural completion (no command has
the still-running fate) or by interrupt, every per-command state it
returns is terminal and no subprocess started by the run is still
alive. -/
theorem runCommands_no_survivors (fates : List CmdFate) :
    ((runCommands fates).all fun s => s.isTerminal && !s.alive) = true := by
  rw [List.all_eq_true]
  intro s hs
  obtain ⟨f, _, rfl⟩ := List.mem_map.mp hs
  rw [runOneCommand_terminal f]
  rw [runOneCommand_not_alive f]
  rfl

/-- C4: a Monitored Command's state only moves forward along
Pending → Running → terminal: every operation is monotone in rank, a
terminal state absorbs every single operation, a terminal state absorbs
every sequence of operations, and no operation produces Running except
from Pending or Running itself. -/
theorem cmdState_forward_only :
    (∀ (op : CmdOp) (s : CmdState), s.rank ≤ (applyOp op s).rank) ∧
    (∀ (op : CmdOp) (s : CmdState), s.isTerminal = true → applyOp op s = s) ∧
    (∀ (ops : List CmdOp) (s : CmdState), s.isTerminal = true →
      List.foldl (fun t op => applyOp op t) s ops = s) ∧
    (∀ (op : CmdOp) (s : CmdState), applyOp op s = CmdState.running →
      s = CmdState.running ∨ s = CmdState.pending) := by
  have habs : ∀ (op : CmdOp) (s : CmdState), s.isTerminal = true → applyOp op s = s := by
    intro op s hs
    cases op with
    | start ok => cases s <;> simp_all [applyOp, startCmd, CmdState.isTerminal]
    | wait code => cases s <;> simp_all [applyOp, waitCmd, CmdState.isTerminal]
    | stop => cases s <;> simp_all [applyOp, stopCmd, CmdState.isTerminal]
  refine ⟨?_, habs, ?_, ?_⟩
  · intro op s
    cases op with
    | start ok =>
      cases s <;> simp [applyOp, startCmd, CmdState.rank]
    | wait code => cases s <;> simp [applyOp, waitCmd, CmdState.rank]
    | stop => cases s <;> simp [applyOp, stopCmd, CmdState.rank]
  · intro ops
    induction ops with
    | nil => intro s _; rfl
    | cons op rest ih =>
      intro s hs
      have h1 := habs op s hs
      simp only [List.foldl_cons, h1]
      exact ih s hs
  · intro op s h
    cases op with
    | start ok =>
      cases s <;> simp_all [applyOp, startCmd]
    | wait code => cases s <;> simp_all [applyOp, waitCmd]
    | stop => cases s <;> simp_all [applyOp, stopCmd]

theorem cmdState_forward_only_witness :
    applyOp CmdOp.stop (CmdState.exited 0) = CmdState.exited 0 ∧
    List.foldl (fun t op => applyOp op t) CmdState.killed
        [CmdOp.start true, CmdOp.wait 0, CmdOp.stop] = CmdState.killed :=
  ⟨cmdState_forward_only.2.1 CmdOp.stop (CmdState.exited 0) (by decide),
   cmdState_forward_only.2.2.1 [CmdOp.start true, CmdOp.wait 0, CmdOp.stop]
     CmdState.killed (by decide)⟩

theorem zip_getElem?_mem {α β : Type} :
    ∀ (as : List α) (bs : List β) (i : Nat) (a : α) (b : β),
      as[i]? = some a → bs[i]? = some b → (a, b) ∈ as.zip bs := by
  intro as
  induction as with
  | nil => intro bs i a b ha; simp at ha
  | cons x xs ih =>
    intro bs i a b ha hb
    cases bs with
    | nil => simp at hb
    | cons y ys =>
      cases i with
      | zero =>
        simp at ha hb
        simp [List.zip_cons_cons, ha.symm, hb.symm]
      | succ j =>
        simp only [List.getElem?_cons_succ] at ha hb
        exact List.mem_cons_of_mem _ (ih ys j a b ha hb)

/-- C5: a command whose spawn fails reaches Failed(SpawnError); every
other command in the run still reaches its own terminal state; the run
is not aborted (the aggregate lists every command) and the failure shows
in the aggregate result, both in the any-failure flag and as that
command's entry in the per-command list. -/
theorem spawn_failure_isolated (names : List String) (fates : List CmdFate) (i : Nat)
    (hf : fates[i]? = some CmdFate.spawnFail) :
    (runCommands fates)[i]? = some (CmdState.failed ErrKind.spawnError) ∧
    (∀ s ∈ runCommands fates, s.isTerminal = true) ∧
    (runAggregate names fates).perCommand = names.zip (runCommands fates) ∧
    (runAggregate names fates).anyFailed = true ∧
    (∀ nm, names[i]? = some nm →
      (nm, CmdState.failed ErrKind.spawnError) ∈ (runAggregate names fates).perCommand) := by
  have h1 : (runCommands fates)[i]? = some (CmdState.failed ErrKind.spawnError) := by
    rw [runCommands, List.getElem?_map, hf]
    rfl
  refine ⟨h1, ?_, rfl, ?_, ?_⟩
  · intro s hs
    obtain ⟨f, _, rfl⟩ := List.mem_map.mp hs
    exact runOneCommand_terminal f
  · rw [runAggregate]
    simp only [List.any_eq_true]
    exact ⟨CmdState.failed ErrKind.spawnError, List.getElem?_mem h1, rfl⟩
  · intro nm hnm
    exact zip_getElem?_mem names (runCommands fates) i nm _ hnm h1

theorem spawn_failure_isolated_witness :
    (runCommands [CmdFate.spawnFail, CmdFate.exits 0])[0]? =
        some (CmdState.failed ErrKind.spawnError) ∧
    ("a", CmdState.failed ErrKind.spawnError) ∈
      (runAggregate ["a", "b"] [CmdFate.spawnFail, CmdFate.exits 0]).perCommand :=
  ⟨(spawn_failure_isolated ["a", "b"] [CmdFate.spawnFail, CmdFate.exits 0] 0 (by decide)).1,
   (spawn_failure_isolated ["a", "b"] [CmdFate.spawnFail, CmdFate.exits 0] 0
       (by decide)).2.2.2.2 "a" (by decide)⟩

/-! ## Theorems: environment expansion -/

theorem string_mk_append (a b : String) : String.mk (a.data ++ b.data) = a ++ b := by
  cases a
  cases b
  rfl

theorem expandLoop_plain (env : String → Option String) :
    ∀ l : List Char, (∀ c ∈ l, c ≠ '$') → expandLoop env none l = l := by
  intro l
  induction l with
  | nil => intro _; rfl
  | cons c cs ih =>
    intro h
    have hc : c ≠ '$' := h c (List.mem_cons_self c cs)
    simp only [expandLoop, if_neg hc]
    rw [ih (fun c' hc' => h c' (List.mem_cons_of_mem _ hc'))]

theorem expandLoop_all_name (env : String → Option String) :
    ∀ (l acc : List Char), l.all isShellNameChar = true →
      expandLoop env (some acc) l = lookupVal env (acc ++ l) := by
  intro l
  induction l with
  | nil =>
    intro acc _
    simp [expandLoop]
  | cons c cs ih =>
    intro acc h
    simp only [List.all_cons, Bool.and_eq_true] at h
    simp only [expandLoop, if_pos h.1]
    rw [ih (acc ++ [c]) h.2]
    simp

theorem expandLoop_name_stop (env : String → Option String) (nm : List Char) :
    ∀ (acc : List Char) (c : Char) (rest : List Char),
      nm.all isShellNameChar = true → isShellNameChar c = false → c ≠ '$' →
      expandLoop env (some acc) (nm ++ c :: rest) =
        lookupVal env (acc ++ nm) ++ c :: expandLoop env none rest := by
  induction nm with
  | nil =>
    intro acc c rest _ hc hd
    simp [expandLoop, hc, if_neg hd]
  | cons x xs ih =>
    intro acc c rest hnm hc hd
    simp only [List.all_cons, Bool.and_eq_true] at hnm
    simp only [List.cons_append, expandLoop, if_pos hnm.1, List.append_eq]
    rw [ih (acc ++ [x]) c rest hnm.2 hc hd]
    simp

/-- C6: `workingDir` and `shellText` are expanded against the host
environment at spawn time with standard semantics: a workingDir of
"$HOME/sub" resolves to the home directory concatenated with "/sub", and
an unresolved variable expands to the empty string. -/
theorem env_expansion_at_spawn (env : String → Option String) (home : String)
    (spec : CmdSpec) (hh : env "HOME" = some home) (hw : spec.workingDir = "$HOME/sub") :
    (expandedAtSpawn env spec).1 = home ++ "/sub" ∧
    (∀ v : String, env v = none → (v.data.all isShellNameChar) = true →
      expandEnv env ("$" ++ v) = "") := by
  constructor
  · show expandEnv env spec.workingDir = home ++ "/sub"
    rw [hw, expandEnv]
    have hdata : ("$HOME/sub" : String).data =
        '$' :: ("HOME".data ++ '/' :: "sub".data) := by decide
    rw [hdata]
    rw [show expandLoop env none ('$' :: ("HOME".data ++ '/' :: "sub".data)) =
        expandLoop env (some []) ("HOME".data ++ '/' :: "sub".data) from by
      simp [expandLoop]]
    rw [expandLoop_name_stop env "HOME".data [] '/' "sub".data (by decide) (by decide)
      (by decide)]
    rw [expandLoop_plain env "sub".data (by decide)]
    simp only [List.nil_append, lookupVal]
    rw [show String.mk "HOME".data = "HOME" from rfl, hh]
    rw [show ('/' :: "sub".data) = "/sub".data from rfl]
    simp only [Option.getD_some]
    exact string_mk_append home "/sub"
  · intro v hv hall
    rw [expandEnv]
    have hdata : ("$" ++ v).data = '$' :: v.data := by
      cases v
      rfl
    rw [hdata]
    rw [show expandLoop env none ('$' :: v.data) =
        expandLoop env (some []) v.data from by simp [expandLoop]]
    rw [expandLoop_all_name env v.data [] hall]
    simp only [List.nil_append, lookupVal]
    rw [show String.mk v.data = v from rfl, hv]
    rfl

theorem env_expansion_at_spawn_witness :
    (expandedAtSpawn (fun v => if v = "HOME" then some "/home/u" else none)
        ⟨"", "ls", "$HOME/sub", false, false⟩).1 = "/home/u" ++ "/sub" ∧
    expandEnv (fun v => if v = "HOME" then some "/home/u" else none) ("$" ++ "NOPE") = "" :=
  ⟨(env_expansion_at_spawn (fun v => if v = "HOME" then some "/home/u" else none)
      "/home/u" ⟨"", "ls", "$HOME/sub", false, false⟩ (by simp) rfl).1,
   (env_expansion_at_spawn (fun v => if v = "HOME" then some "/home/u" else none)
      "/home/u" ⟨"", "ls", "$HOME/sub", false, false⟩ (by simp) rfl).2 "NOPE" (by simp)
     (by decide)⟩

/-! ## Theorems: GetConfigDir -/

/-- C10: `GetConfigDir` returns the home directory joined with
".config/oneterminal", asks the OS to create that directory (with
parents) whenever the home lookup succeeds, and returns an error — with
an empty path — exactly when the home lookup or the directory creation
fails. -/
theorem getConfigDir_spec (os : OSEnv) :
    (∀ h : String, os.userHomeDir = Except.ok h →
      (GetConfigDir os).mkdirCalls = [filepathJoin h ".config/oneterminal"] ∧
      (os.mkdirAll (filepathJoin h ".config/oneterminal") = Except.ok () →
        GetConfigDir os =
          ⟨filepathJoin h ".config/oneterminal", none,
           [filepathJoin h ".config/oneterminal"]⟩)) ∧
    ((GetConfigDir os).err ≠ none → (GetConfigDir os).path = "") ∧
    ((GetConfigDir os).err ≠ none ↔
      (∃ e, os.userHomeDir = Except.error e) ∨
      (∃ h e, os.userHomeDir = Except.ok h ∧
        os.mkdirAll (filepathJoin h ".config/oneterminal") = Except.error e)) := by
  rcases hu : os.userHomeDir with e | h0
  · refine ⟨?_, ?_, ?_⟩
    · intro h hh
      simp at hh
    · intro _
      simp [GetConfigDir, hu]
    · have hgc : (GetConfigDir os).err = some ("finding home directory: " ++ e) := by
        simp [GetConfigDir, hu]
      rw [hgc]
      constructor
      · intro _
        exact Or.inl ⟨e, rfl⟩
      · intro _
        simp
  · rcases hm : os.mkdirAll (filepathJoin h0 ".config/oneterminal") with e | u
    · refine ⟨?_, ?_, ?_⟩
      · intro h hh
        have hh' : h0 = h := by simpa using hh
        subst hh'
        refine ⟨by simp [GetConfigDir, hu, hm], ?_⟩
        intro hok
        rw [hm] at hok
        simp at hok
      · intro _
        simp [GetConfigDir, hu, hm]
      · have hgc : (GetConfigDir os).err = some e := by
          simp [GetConfigDir, hu, hm]
        rw [hgc]
        constructor
        · intro _
          exact Or.inr ⟨h0, e, rfl, hm⟩
        · intro _
          simp
    · refine ⟨?_, ?_, ?_⟩
      · intro h hh
        have hh' : h0 = h := by simpa using hh
        subst hh'
        refine ⟨by simp [GetConfigDir, hu, hm], fun _ => ?_⟩
        simp [GetConfigDir, hu, hm]
      · intro hne
        exact absurd (show (GetConfigDir os).err = none by simp [GetConfigDir, hu, hm]) hne
      · have hgc : (GetConfigDir os).err = none := by
          simp [GetConfigDir, hu, hm]
        rw [hgc]
        constructor
        · intro hne
          exact absurd rfl hne
        · rintro (⟨e, he⟩ | ⟨h, e, hh, hm'⟩)
          · simp at he
          · have hh' : h0 = h := by simpa using hh
            subst hh'
            rw [hm] at hm'
            simp at hm'

theorem getConfigDir_spec_witness :
    GetConfigDir ⟨Except.ok "/home/u", fun _ => Except.ok ()⟩ =
      ⟨"/home/u" ++ "/" ++ ".config/oneterminal", none,
       ["/home/u" ++ "/" ++ ".config/oneterminal"]⟩ := by
  have h := ((getConfigDir_spec ⟨Except.ok "/home/u", fun _ => Except.ok ()⟩).1
      "/home/u" rfl).2 rfl
  rw [h]
  decide

/-! ## Theorems: Output Multiplexer -/

theorem splitLines_newline (cs buf : List Char) :
    splitLines ('\n' :: cs) buf =
      (buf :: (splitLines cs []).1, (splitLines cs []).2) := by
  simp [splitLines]

theorem splitLines_other {c : Char} (hc : c ≠ '\n') (cs buf : List Char) :
    splitLines (c :: cs) buf = splitLines cs (buf ++ [c]) := by
  simp [splitLines, hc]

theorem muxChars_newline (name : String) (w : Nat) (cs buf : List Char)
    (sink : List (Nat × List Char)) :
    muxChars name w ('\n' :: cs) buf sink =
      muxChars name w cs [] (sink ++ [(w, emitLine name buf)]) := by
  simp [muxChars]

theorem muxChars_other {c : Char} (hc : c ≠ '\n') (name : String) (w : Nat)
    (cs buf : List Char) (sink : List (Nat × List Char)) :
    muxChars name w (c :: cs) buf sink = muxChars name w cs (buf ++ [c]) sink := by
  simp [muxChars, hc]

theorem muxChars_eq (name : String) (w : Nat) :
    ∀ (data buf : List Char) (sink : List (Nat × List Char)),
      muxChars name w data buf sink =
        ((splitLines data buf).2,
         sink ++ ((splitLines data buf).1.map fun core => (w, emitLine name core))) := by
  intro data
  induction data with
  | nil =>
    intro buf sink
    simp [muxChars, splitLines]
  | cons c cs ih =>
    intro buf sink
    by_cases hc : c = '\n'
    · subst hc
      rw [muxChars_newline, ih, splitLines_newline]
      simp
    · rw [muxChars_other hc, ih, splitLines_other hc]

theorem splitLines_flatten :
    ∀ (data buf : List Char),
      joinLines (splitLines data buf).1 ++ (splitLines data buf).2 = buf ++ data := by
  intro data
  induction data with
  | nil =>
    intro buf
    simp [splitLines, joinLines]
  | cons c cs ih =>
    intro buf
    by_cases hc : c = '\n'
    · subst hc
      rw [splitLines_newline]
      have h := ih []
      simp only [List.nil_append] at h
      simp only [joinLines, List.map_cons, List.flatten_cons] at h ⊢
      rw [List.append_assoc, List.append_assoc, h]
      simp
    · rw [splitLines_other hc, ih (buf ++ [c])]
      simp

theorem splitLines_newline_free :
    ∀ (data buf : List Char), '\n' ∉ buf →
      (∀ l ∈ (splitLines data buf).1, '\n' ∉ l) ∧ '\n' ∉ (splitLines data buf).2 := by
  intro data
  induction data with
  | nil =>
    intro buf hb
    exact ⟨by simp [splitLines], by simpa [splitLines] using hb⟩
  | cons c cs ih =>
    intro buf hb
    by_cases hc : c = '\n'
    · subst hc
      rw [splitLines_newline]
      have h := ih [] (by simp)
      refine ⟨?_, h.2⟩
      intro l hl
      rcases List.mem_cons.mp hl with rfl | hl2
      · exact hb
      · exact h.1 l hl2
    · rw [splitLines_other hc]
      apply ih
      intro hmem
      rcases List.mem_append.mp hmem with hx | hx
      · exact hb hx
      · simp only [List.mem_singleton] at hx
        exact hc hx.symm

theorem joinLines_append (a b : List (List Char)) :
    joinLines (a ++ b) = joinLines a ++ joinLines b := by
  simp [joinLines]

theorem sinkOf_append (w : Nat) (a b : List (Nat × List Char)) :
    sinkOf w (a ++ b) = sinkOf w a ++ sinkOf w b := by
  simp [sinkOf]

theorem sinkOf_map_self (w : Nat) (f : List Char → List Char) (ls : List (List Char)) :
    sinkOf w (ls.map fun core => (w, f core)) = ls.map f := by
  induction ls with
  | nil => rfl
  | cons l t ih =>
    simp only [sinkOf] at ih
    simp [sinkOf, List.filterMap_cons, ih]

theorem sinkOf_map_other (w w' : Nat) (h : w' ≠ w) (f : List Char → List Char)
    (ls : List (List Char)) :
    sinkOf w (ls.map fun core => (w', f core)) = [] := by
  induction ls with
  | nil => rfl
  | cons l t ih =>
    simp only [sinkOf] at ih
    simp [sinkOf, List.filterMap_cons, ih, h]

theorem writerInput_append (w : Nat) (events : List Chunk) (ch : Chunk) :
    writerInput w (events ++ [ch]) =
      writerInput w events ++ (if ch.writer = w then ch.data else []) := by
  by_cases h : ch.writer = w <;>
    simp [writerInput, List.filterMap_append, h]

theorem muxWriteChunk_silent (info : Nat → WriterInfo) (st : MuxState) (ch : Chunk)
    (hs : (info ch.writer).silence = true) :
    muxWriteChunk info st ch = st := by
  simp [muxWriteChunk, hs]

theorem muxInv_step (info : Nat → WriterInfo) (events : List Chunk) (ch : Chunk)
    (st : MuxState) (h : MuxInv info events st) :
    MuxInv info (events ++ [ch]) (muxWriteChunk info st ch) := by
  cases hs : (info ch.writer).silence with
  | true =>
    rw [muxWriteChunk_silent info st ch hs]
    intro w
    refine ⟨?_, fun hw => (h w).2 hw⟩
    intro hw
    obtain ⟨cores, h1, h2, h3, h4⟩ := (h w).1 hw
    refine ⟨cores, h1, h2, ?_, h4⟩
    rw [writerInput_append]
    have hne : ch.writer ≠ w := by
      intro he
      rw [he, hw] at hs
      exact absurd hs (by simp)
    rw [if_neg hne, List.append_nil]
    exact h3
  | false =>
    have hred : muxWriteChunk info st ch =
        { buffers := fun w2 => if w2 = ch.writer
            then (splitLines ch.data (st.buffers ch.writer)).2
            else st.buffers w2
          sink := st.sink ++ ((splitLines ch.data (st.buffers ch.writer)).1.map
            fun core => (ch.writer, emitLine (info ch.writer).name core)) } := by
      rw [muxWriteChunk, if_neg (by simp [hs])]
      rw [muxChars_eq]
    rw [hred]
    intro w
    by_cases hww : w = ch.writer
    · subst hww
      refine ⟨?_, ?_⟩
      · intro hw
        obtain ⟨cores, h1, h2, h3, h4⟩ := (h ch.writer).1 hw
        obtain ⟨hnl1, hnl2⟩ :=
          splitLines_newline_free ch.data (st.buffers ch.writer) h4
        refine ⟨cores ++ (splitLines ch.data (st.buffers ch.writer)).1, ?_, ?_, ?_, ?_⟩
        · show sinkOf ch.writer
              (st.sink ++ ((splitLines ch.data (st.buffers ch.writer)).1.map
                fun core => (ch.writer, emitLine (info ch.writer).name core))) = _
          rw [sinkOf_append, h1, sinkOf_map_self, List.map_append]
        · intro l hl
          rcases List.mem_append.mp hl with hl | hl
          · exact h2 l hl
          · exact hnl1 l hl
        · show joinLines (cores ++ (splitLines ch.data (st.buffers ch.writer)).1) ++
              (if ch.writer = ch.writer
                then (splitLines ch.data (st.buffers ch.writer)).2
                else st.buffers ch.writer) =
              writerInput ch.writer (events ++ [ch])
          rw [if_pos rfl, joinLines_append, writerInput_append, if_pos rfl]
          rw [List.append_assoc, splitLines_flatten]
          rw [← List.append_assoc, h3]
        · show '\n' ∉ (if ch.writer = ch.writer
              then (splitLines ch.data (st.buffers ch.writer)).2
              else st.buffers ch.writer)
          rw [if_pos rfl]
          exact hnl2
      · intro hw
        exact absurd hw (by simp [hs])
    · have hcw : ch.writer ≠ w := fun he => hww he.symm
      refine ⟨?_, ?_⟩
      · intro hw
        obtain ⟨cores, h1, h2, h3, h4⟩ := (h w).1 hw
        refine ⟨cores, ?_, h2, ?_, ?_⟩
        · rw [sinkOf_append, h1, sinkOf_map_other w ch.writer hcw]
          simp
        · simp only [if_neg hww]
          rw [writerInput_append, if_neg hcw, List.append_nil]
          exact h3
        · simp only [if_neg hww]
          exact h4
      · intro hw
        obtain ⟨h1, h2⟩ := (h w).2 hw
        refine ⟨?_, ?_⟩
        · rw [sinkOf_append, h1, sinkOf_map_other w ch.writer hcw]
          rfl
        · simp only [if_neg hww]
          exact h2

theorem muxInv_nil (info : Nat → WriterInfo) : MuxInv info [] muxInit := by
  intro w
  refine ⟨?_, ?_⟩
  · intro _
    exact ⟨[], rfl, by simp, by simp [joinLines, writerInput, muxInit], by simp [muxInit]⟩
  · intro _
    exact ⟨rfl, rfl⟩

theorem muxRun_inv (info : Nat → WriterInfo) (events : List Chunk) :
    MuxInv info events (muxRun info events) := by
  induction events using List.reverseRecOn with
  | nil => exact muxInv_nil info
  | append_singleton es ch ih =>
    have hstep : muxRun info (es ++ [ch]) = muxWriteChunk info (muxRun info es) ch := by
      simp [muxRun, List.foldl_append]
    rw [hstep]
    exact muxInv_step info es ch (muxRun info es) ih

theorem mem_joinLines_infix {l : List Char} {cores : List (List Char)}
    {buf input : List Char}
    (hm : l ∈ cores) (he : joinLines cores ++ buf = input) : l <:+: input := by
  obtain ⟨s, t, rfl⟩ := List.append_of_mem hm
  refine ⟨joinLines s, '\n' :: (joinLines t ++ buf), ?_⟩
  rw [← he]
  simp [joinLines, List.append_assoc]

theorem sinkOk_of_muxInv (info : Nat → WriterInfo) (events : List Chunk) (st : MuxState)
    (h : MuxInv info events st) : SinkOk info events st := by
  constructor
  · intro e he
    cases hsil : (info e.1).silence with
    | false =>
      obtain ⟨cores, h1, h2, h3, _⟩ := (h e.1).1 hsil
      have hmem : e.2 ∈ sinkOf e.1 st.sink := by
        rw [sinkOf]
        exact List.mem_filterMap.mpr ⟨e, he, by simp⟩
      rw [h1] at hmem
      obtain ⟨core, hcm, hce⟩ := List.mem_map.mp hmem
      exact ⟨hsil, core, hce.symm, h2 core hcm, mem_joinLines_infix hcm h3⟩
    | true =>
      obtain ⟨h1, _⟩ := (h e.1).2 hsil
      have hmem : e.2 ∈ sinkOf e.1 st.sink := by
        rw [sinkOf]
        exact List.mem_filterMap.mpr ⟨e, he, by simp⟩
      rw [h1] at hmem
      exact absurd hmem (List.not_mem_nil _)
  · intro w
    cases hsil : (info w).silence with
    | false =>
      obtain ⟨cores, _, _, h3, h4⟩ := (h w).1 hsil
      refine ⟨h4, ⟨joinLines cores, h3⟩, ?_⟩
      intro hcon
      exact absurd hcon (by simp)
    | true =>
      obtain ⟨_, h2⟩ := (h w).2 hsil
      rw [h2]
      exact ⟨by simp, ⟨writerInput w events, by simp⟩, fun _ => rfl⟩

theorem sinkOk_close (info : Nat → WriterInfo) (events : List Chunk) (st : MuxState)
    (w : Nat) (h : SinkOk info events st) : SinkOk info events (muxClose info st w) := by
  by_cases hb : st.buffers w = []
  · rw [muxClose, if_pos hb]
    exact h
  · rw [muxClose, if_neg hb]
    obtain ⟨hsink, hbuf⟩ := h
    constructor
    · intro e he
      rcases List.mem_append.mp he with he | he
      · exact hsink e he
      · simp only [List.mem_singleton] at he
        subst he
        obtain ⟨h1, h2, h3⟩ := hbuf w
        have hsil : (info w).silence = false := by
          cases hcase : (info w).silence with
          | false => rfl
          | true => exact absurd (h3 hcase) hb
        exact ⟨hsil, st.buffers w, rfl, h1, h2.isInfix⟩
    · intro w2
      by_cases hw2 : w2 = w
      · subst hw2
        simp only [if_pos rfl]
        exact ⟨by simp, ⟨writerInput w2 events, by simp⟩, fun _ => rfl⟩
      · simp only [if_neg hw2]
        exact hbuf w2

theorem sinkOk_closeAll (info : Nat → WriterInfo) (events : List Chunk) :
    ∀ (ws : List Nat) (st : MuxState), SinkOk info events st →
      SinkOk info events (muxCloseAll info st ws) := by
  intro ws
  induction ws with
  | nil =>
    intro st h
    exact h
  | cons w t ih =>
    intro st h
    rw [muxCloseAll, List.foldl_cons]
    exact ih (muxClose info st w) (sinkOk_close info events st w h)

theorem muxFinal_sinkOk (info : Nat → WriterInfo) (events : List Chunk) (ws : List Nat) :
    SinkOk info events (muxFinal info events ws) :=
  sinkOk_closeAll info events ws (muxRun info events)
    (sinkOk_of_muxInv info events (muxRun info events) (muxRun_inv info events))

/-- C1: in every run of the multiplexer over every interleaving of chunk
arrivals from any number of concurrently writing commands, every write
emitted to the shared sink is one complete newline-free line (or flushed
trailing remainder) of the single command that performed it: its bytes
are a contiguous segment of that one command's own input stream, so no
emitted line contains bytes from two different commands. -/
theorem sink_writes_line_atomic (info : Nat → WriterInfo) (events : List Chunk)
    (ws : List Nat) :
    ∀ e ∈ (muxFinal info events ws).sink,
      ∃ core, e.2 = emitLine (info e.1).name core ∧ '\n' ∉ core ∧
        core <:+: writerInput e.1 events := by
  intro e he
  obtain ⟨_, core, h1, h2, h3⟩ := (muxFinal_sinkOk info events ws).1 e he
  exact ⟨core, h1, h2, h3⟩

theorem sink_writes_line_atomic_witness :
    ∃ core, ((0, "[a] hello".data) : Nat × List Char).2 =
        emitLine (muxDemoInfo 0).name core ∧ '\n' ∉ core ∧
        core <:+: writerInput 0 muxDemoEvents :=
  sink_writes_line_atomic muxDemoInfo muxDemoEvents [0, 1] (0, "[a] hello".data)
    (by decide)

/-- C3: the config layer applies `SilenceOutput` exactly when the parsed
command's silence field is true, and the multiplexer forwards zero bytes
from a silenced command: in any run over any interleaving (and any
stream closes), no sink write is performed by a silenced command,
regardless of how much that command wrote. -/
theorem silenced_contributes_nothing (shell : String) (cmd : Command)
    (info : Nat → WriterInfo) (events : List Chunk) (ws : List Nat) (w : Nat) :
    (MonitorOption.silenceOutput ∈ commandOptions shell cmd ↔ cmd.silence = true) ∧
    ((info w).silence = true → ∀ e ∈ (muxFinal info events ws).sink, e.1 ≠ w) := by
  constructor
  · simp only [commandOptions, List.mem_append]
    constructor
    · intro h
      rcases h with ((h | h) | h) | h <;> split_ifs at h <;> simp_all
    · intro h
      right
      simp [h]
  · intro hw e he hew
    obtain ⟨hsil, _⟩ := (muxFinal_sinkOk info events ws).1 e he
    rw [hew, hw] at hsil
    exact absurd hsil (by simp)

theorem silenced_contributes_nothing_witness :
    (MonitorOption.silenceOutput ∈ commandOptions "zsh" ⟨"b", "echo", "", true⟩ ↔
      (⟨"b", "echo", "", true⟩ : Command).silence = true) ∧
    ((0, "[a] hi".data) : Nat × List Char).1 ≠ 1 :=
  ⟨(silenced_contributes_nothing "zsh" ⟨"b", "echo", "", true⟩ muxDemoSilentInfo
      muxDemoSilentEvents [0, 1] 1).1,
   (silenced_contributes_nothing "zsh" ⟨"b", "echo", "", true⟩ muxDemoSilentInfo
      muxDemoSilentEvents [0, 1] 1).2 (by decide) (0, "[a] hi".data) (by decide)⟩

/-- C7: the config layer applies `PrefixStdout` with the command's name
exactly when the parsed command's name is non-empty, and every line the
multiplexer emits carries the "[name] " tag exactly when the emitting
command's registered name is non-empty — with an empty name the line's
byte content goes to the sink unmodified. -/
theorem line_tagging_iff_named (shell : String) (cmd : Command) (n : String)
    (info : Nat → WriterInfo) (events : List Chunk) (ws : List Nat) :
    (MonitorOption.prefixStdout n ∈ commandOptions shell cmd ↔
      (n = cmd.name ∧ cmd.name ≠ "")) ∧
    (∀ e ∈ (muxFinal info events ws).sink, ∃ core,
      '\n' ∉ core ∧ core <:+: writerInput e.1 events ∧
      e.2 = (if (info e.1).name = "" then core
             else ("[" ++ (info e.1).name ++ "] ").data ++ core)) := by
  constructor
  · simp only [commandOptions, List.mem_append]
    constructor
    · intro h
      rcases h with ((h | h) | h) | h <;> split_ifs at h <;> simp_all
    · rintro ⟨rfl, hne⟩
      left
      left
      left
      simp [hne]
  · intro e he
    obtain ⟨_, core, h1, h2, h3⟩ := (muxFinal_sinkOk info events ws).1 e he
    exact ⟨core, h2, h3, by rw [h1, emitLine]⟩

theorem line_tagging_iff_named_witness :
    MonitorOption.prefixStdout "g" ∈ commandOptions "zsh" ⟨"g", "echo", "", false⟩ ∧
    (∃ core, '\n' ∉ core ∧ core <:+: writerInput 0 muxDemoNoNameEvents ∧
      ("raw".data : List Char) =
        (if (muxDemoNoNameInfo 0).name = "" then core
         else ("[" ++ (muxDemoNoNameInfo 0).name ++ "] ").data ++ core)) :=
  ⟨(line_tagging_iff_named "zsh" ⟨"g", "echo", "", false⟩ "g" muxDemoNoNameInfo
      muxDemoNoNameEvents [0]).1.mpr ⟨rfl, by decide⟩,
   (line_tagging_iff_named "zsh" ⟨"g", "echo", "", false⟩ "g" muxDemoNoNameInfo
      muxDemoNoNameEvents [0]).2 (0, "raw".data) (by decide)⟩

end OneTerminal
